import Mathlib

/-!
Shallow embedding of the ackermann.rs library (src/lib.rs).

The Rust code works on `num_bigint::BigUint`, an arbitrary-precision
unsigned integer; we model it with `Nat`.  `BigUint` subtraction panics
on underflow, so the one place the code subtracts (`A`) is modelled with
`Option Nat`, where `none` is the panic.

The source has three functions:
  - `pow base exp`   (lib.rs lines 43-71): binary exponentiation, with a
    defect: the general path runs the repeated-squaring loop but then
    returns the constant one instead of the accumulator (line 70).
  - `hyper_op n base exp` (lib.rs lines 80-112): the hyperoperation
    hierarchy; orders 0-3 are explicit, order n+1 iterates order n.
  - `A m n` (lib.rs lines 130-133): `hyper_op m 2 (n+3) - 3`.
-/

namespace Ackermann

/-- Body of the do-while loop of the Rust `pow` (lib.rs lines 61-69): if the
low bit of `e` is set multiply the accumulator by `b`; halve `e`, square `b`;
repeat while `e` exceeds one.  Returns the accumulator at loop exit.  The
Rust function discards this value. -/
def powLoop (b e acc : Nat) : Nat :=
  let acc2 := if e % 2 = 1 then acc * b else acc
  let e2 := e / 2
  let b2 := b * b
  if 1 < e2 then powLoop b2 e2 acc2 else acc2
termination_by e
decreasing_by
  simp_wf
  omega

/-- The Rust `pow` (lib.rs lines 43-71).  Degenerate cases are checked in
source order; the general path runs the loop, discards its result and
returns one, exactly as the source does. -/
def pow (base exp : Nat) : Nat :=
  if base = 0 ∨ exp = 1 then base
  else if base = 1 ∨ exp = 0 then 1
  else
    let _ := powLoop base exp 1
    1

/-- Left-fold iteration: apply `f` to the accumulator `k` times.  This is
the inner while loop of `hyper_op` (lib.rs lines 105-110), which runs its
body `exp - 1` times. -/
def iterApp (f : Nat → Nat) : Nat → Nat → Nat
  | 0, acc => acc
  | k + 1, acc => iterApp f k (f acc)

/-- The Rust `hyper_op` (lib.rs lines 80-112).  Orders 0 to 3 are the
explicit cases; at order `n + 4` with `exp = 0` it returns one, and with
`exp = e + 1` it starts the accumulator at `base` and applies
`hyper_op (n+3) base` to it `e` times, matching the do-while loop that
first decrements `exp` and stops when it reaches zero. -/
def hyper_op : Nat → Nat → Nat → Nat
  | 0 => fun _ e => e + 1
  | 1 => fun b e => b + e
  | 2 => fun b e => b * e
  | 3 => fun b e => pow b e
  | n + 4 => fun b e =>
    match e with
    | 0 => 1
    | k + 1 => iterApp (hyper_op (n + 3) b) k b

/-- The Rust `A` (lib.rs lines 130-133): `hyper_op m 2 (n+3) - 3`.  BigUint
subtraction panics when the minuend is smaller, so the result is `none`
when `hyper_op m 2 (n+3) < 3`. -/
def A (m n : Nat) : Option Nat :=
  let v := hyper_op m 2 (n + 3)
  if v < 3 then none else some (v - 3)

/-! Fuel-indexed counterparts, used to state termination: one unit of fuel
is consumed per function invocation, so `some` at finite fuel is exactly
termination of the corresponding source computation. -/

/-- Fuelled form of `powLoop`; `none` means the fuel ran out before the
loop exited. -/
def powLoopFuel : Nat → Nat → Nat → Nat → Option Nat
  | 0 => fun _ _ _ => none
  | fuel + 1 => fun b e acc =>
    let acc2 := if e % 2 = 1 then acc * b else acc
    let e2 := e / 2
    let b2 := b * b
    if 1 < e2 then powLoopFuel fuel b2 e2 acc2 else some acc2

/-- Fuelled left-fold: propagate `none` from the supplied step. -/
def loopFuel (g : Nat → Option Nat) : Nat → Nat → Option Nat
  | 0, acc => some acc
  | k + 1, acc =>
    match g acc with
    | none => none
    | some v => loopFuel g k v

/-- Fuelled form of `hyper_op`: each recursive call into a lower order
consumes one unit of fuel, so the fuel bounds the recursion depth across
orders. -/
def hyperFuel : Nat → Nat → Nat → Nat → Option Nat
  | 0 => fun _ _ _ => none
  | fuel + 1 => fun n b e =>
    match n, e with
    | 0, e => some (e + 1)
    | 1, e => some (b + e)
    | 2, e => some (b * e)
    | 3, e => some (pow b e)
    | _ + 4, 0 => some 1
    | m + 4, k + 1 => loopFuel (hyperFuel fuel (m + 3) b) k b

/-- Fuelled form of `A`: outer `none` means the fuel ran out; `some none`
means the computation finished in a panic (the underflowing subtraction);
`some (some v)` is a normal return. -/
def AFuel (fuel m n : Nat) : Option (Option Nat) :=
  match hyperFuel fuel m 2 (n + 3) with
  | none => none
  | some v => some (if v < 3 then none else some (v - 3))

/-! Helper lemmas, shared by several claim theorems. -/

/-- On the general path the defective `pow` returns one. -/
theorem pow_eq_one_general {b e : Nat} (hb : 2 ≤ b) (he : 2 ≤ e) :
    pow b e = 1 := by
  unfold pow
  rw [if_neg (by omega), if_neg (by omega)]

/-- Peeling an application off the other end of the left fold. -/
theorem iterApp_succ (f : Nat → Nat) (k acc : Nat) :
    iterApp f (k + 1) acc = f (iterApp f k acc) := by
  induction k generalizing acc with
  | zero => rfl
  | succ k ih =>
    show iterApp f (k + 1) (f acc) = f (iterApp f (k + 1) acc)
    rw [ih]
    rfl

/-- A fuelled step that always succeeds makes the fuelled fold succeed and
agree with the plain fold. -/
theorem loopFuel_complete (f : Nat → Nat) (g : Nat → Option Nat)
    (hg : ∀ x, g x = some (f x)) :
    ∀ k acc, loopFuel g k acc = some (iterApp f k acc) := by
  intro k
  induction k with
  | zero => intro acc; rfl
  | succ k ih =>
    intro acc
    show (match g acc with | none => none | some v => loopFuel g k v)
      = some (iterApp f (k + 1) acc)
    rw [hg acc]
    exact ih (f acc)

/-- With fuel exceeding the order, the fuelled hyperoperation terminates and
agrees with the total one. -/
theorem hyperFuel_complete :
    ∀ fuel n b e, n < fuel → hyperFuel fuel n b e = some (hyper_op n b e) := by
  intro fuel
  induction fuel with
  | zero => intro n b e h; exact absurd h (Nat.not_lt_zero n)
  | succ fuel ih =>
    intro n b e h
    rcases n with _ | _ | _ | _ | m
    · rfl
    · rfl
    · rfl
    · rfl
    · rcases e with _ | k
      · rfl
      · have hm : m + 3 < fuel := by omega
        exact loopFuel_complete (hyper_op (m + 3) b) (hyperFuel fuel (m + 3) b)
          (fun x => ih (m + 3) b x hm) k b

/-- With fuel exceeding the exponent, the fuelled exponentiation loop
terminates and agrees with the plain one. -/
theorem powLoopFuel_complete :
    ∀ fuel b e acc, e < fuel → powLoopFuel fuel b e acc = some (powLoop b e acc) := by
  intro fuel
  induction fuel with
  | zero => intro b e acc h; exact absurd h (Nat.not_lt_zero e)
  | succ fuel ih =>
    intro b e acc h
    unfold powLoopFuel powLoop
    by_cases h2 : 1 < e / 2
    · rw [if_pos h2, if_pos h2]
      exact ih _ _ _ (by omega)
    · rw [if_neg h2, if_neg h2]

/-- With fuel exceeding `m`, the fuelled Ackermann adapter terminates and
agrees with the total one (including agreeing on where it panics). -/
theorem AFuel_complete (fuel m n : Nat) (h : m < fuel) :
    AFuel fuel m n = some (A m n) := by
  unfold AFuel A
  rw [hyperFuel_complete fuel m 2 (n + 3) h]

/-! Claim theorems. -/

/-- C1: the spec claims `A 3 n = 2 ^ (n + 3) - 3`, `A 3 3 = 61`,
`A 4 0 = 13`, `A 4 1 = 65533`.  The code disagrees: because `pow` returns
one on its general path, each of these calls reaches the subtraction with a
value below three and panics, so all of them evaluate to `none`. -/
theorem A_reference_values_are_panics :
    A 3 3 = none ∧ A 4 0 = none ∧ A 4 1 = none := by decide

/-- C2: the spec claims `hyper_op m 2 (n + 3) ≥ 3` so that `A` never
underflows.  The code disagrees at `m = 3, n = 0`: the inner call yields
one and `A 3 0` panics. -/
theorem hyper_op_underflow_invariant_fails :
    hyper_op 3 2 (0 + 3) = 1 ∧ A 3 0 = none := by decide

/-- C3: on the general path (base and exponent both at least two), `pow`
returns the constant one, which is not the mathematical power. -/
theorem pow_general_path_returns_one (b e : Nat) (hb : 2 ≤ b) (he : 2 ≤ e) :
    pow b e = 1 ∧ pow b e ≠ b ^ e := by
  have h1 : pow b e = 1 := pow_eq_one_general hb he
  refine ⟨h1, ?_⟩
  have h2 : (2 : Nat) ^ 2 ≤ 2 ^ e := Nat.pow_le_pow_right (by omega) he
  have h3 : (2 : Nat) ^ e ≤ b ^ e := Nat.pow_le_pow_left hb e
  have h4 : 1 < b ^ e := lt_of_lt_of_le (by norm_num) (le_trans h2 h3)
  rw [h1]
  exact ne_of_lt h4

/-- Witness for C3 at base 2, exponent 2. -/
theorem pow_general_path_returns_one_check :
    (2 ≤ 2) ∧ (pow 2 2 = 1 ∧ pow 2 2 ≠ 2 ^ 2) :=
  ⟨by decide, pow_general_path_returns_one 2 2 (by decide) (by decide)⟩

/-- C4: the spec claims `hyper_op 3 b e = b ^ e`.  The code disagrees at
`b = 2, e = 2`: order three delegates to the defective `pow` and yields one
instead of four. -/
theorem hyper_op_three_not_pow :
    hyper_op 3 2 2 = 1 ∧ hyper_op 3 2 2 ≠ 2 ^ 2 := by decide

/-- C5: `A 0 n = n + 1`, `A 1 n = n + 2`, `A 2 n = 2 * n + 3` for every
`n`, and in particular `A 2 2 = 7`; these orders avoid `pow` entirely and
the subtraction never underflows there. -/
theorem A_low_orders :
    (∀ n : Nat, A 0 n = some (n + 1) ∧ A 1 n = some (n + 2) ∧
      A 2 n = some (2 * n + 3)) ∧ A 2 2 = some 7 := by
  refine ⟨fun n => ⟨?_, ?_, ?_⟩, by decide⟩
  · simp only [A, hyper_op]
    rw [if_neg (by omega)]
    exact congrArg some (by omega)
  · simp only [A, hyper_op]
    rw [if_neg (by omega)]
    exact congrArg some (by omega)
  · simp only [A, hyper_op]
    rw [if_neg (by omega)]
    exact congrArg some (by omega)

/-- C6: the degenerate cases of `pow`, in source order: if `base = 0` or
`exp = 1` it returns `base`; otherwise if `base = 1` or `exp = 0` it
returns one; equivalently `pow b 0 = 1` for `b ≠ 0`, `pow 0 e = 0` for
`e ≠ 0`, and `pow b 1 = b`. -/
theorem pow_degenerate_cases (b e : Nat) :
    (b = 0 ∨ e = 1 → pow b e = b) ∧
    (¬(b = 0 ∨ e = 1) → (b = 1 ∨ e = 0) → pow b e = 1) ∧
    (b ≠ 0 → pow b 0 = 1) ∧
    (e ≠ 0 → pow 0 e = 0) ∧
    pow b 1 = b := by
  refine ⟨fun h => ?_, fun h1 h2 => ?_, fun hb => ?_, fun he => ?_, ?_⟩ <;> unfold pow
  · rw [if_pos h]
  · rw [if_neg h1, if_pos h2]
  · rw [if_neg (by omega), if_pos (Or.inr rfl)]
  · rw [if_pos (Or.inl rfl)]
  · rw [if_pos (Or.inr rfl)]

/-- Witness for C6 exercising each degenerate case at concrete inputs. -/
theorem pow_degenerate_cases_check :
    pow 0 5 = 0 ∧ pow 7 1 = 7 ∧ pow 1 9 = 1 ∧ pow 5 0 = 1 :=
  ⟨(pow_degenerate_cases 0 5).2.2.2.1 (by decide),
   (pow_degenerate_cases 7 1).1 (Or.inr rfl),
   (pow_degenerate_cases 1 9).2.1 (by decide) (Or.inl rfl),
   (pow_degenerate_cases 5 0).2.2.1 (by decide)⟩

/-- C7: orders zero, one and two are successor of the exponent (the base is
ignored), addition, and multiplication. -/
theorem hyper_op_low_orders (b e : Nat) :
    hyper_op 0 b e = e + 1 ∧ hyper_op 1 b e = b + e ∧ hyper_op 2 b e = b * e :=
  ⟨rfl, rfl, rfl⟩

/-- C8: at every order at least four, a zero exponent yields one. -/
theorem hyper_op_high_order_exp_zero (n b : Nat) (h : 4 ≤ n) :
    hyper_op n b 0 = 1 := by
  obtain ⟨m, rfl⟩ : ∃ m, n = m + 4 := ⟨n - 4, by omega⟩
  rfl

/-- Witness for C8 at order 7, base 5. -/
theorem hyper_op_high_order_exp_zero_check : 4 ≤ 7 ∧ hyper_op 7 5 0 = 1 :=
  ⟨by decide, hyper_op_high_order_exp_zero 7 5 (by decide)⟩

/-- C9: every computation terminates: the fuelled interpreters, which spend
one unit of fuel per loop iteration of `powLoop` and per order-decreasing
recursive call of `hyper_op` and `A`, reach a result at some finite fuel
and agree with the total functions. -/
theorem all_computations_terminate (b e acc n m k : Nat) :
    (∃ fuel, powLoopFuel fuel b e acc = some (powLoop b e acc)) ∧
    (∃ fuel, hyperFuel fuel n b e = some (hyper_op n b e)) ∧
    (∃ fuel, AFuel fuel m k = some (A m k)) :=
  ⟨⟨e + 1, powLoopFuel_complete (e + 1) b e acc (by omega)⟩,
   ⟨n + 1, hyperFuel_complete (n + 1) n b e (by omega)⟩,
   ⟨m + 1, AFuel_complete (m + 1) m k (by omega)⟩⟩

/-- C10: for every `n`, the inner call of `A 3 n` evaluates to one through
the general path of `pow`, so the subtraction underflows and `A 3 n`
panics. -/
theorem A_order_three_always_panics (n : Nat) :
    hyper_op 3 2 (n + 3) = 1 ∧ A 3 n = none := by
  have h1 : hyper_op 3 2 (n + 3) = 1 := pow_eq_one_general (by omega) (by omega)
  refine ⟨h1, ?_⟩
  simp only [A]
  rw [h1, if_pos (by omega)]

end Ackermann
